import Mathlib

/-!
Shallow embedding of the download engine of `FitgirlRepackDownloader.py`
(class `DownloaderWorker`, lines 41-178, and the session persistence of
`MainWindow.save_session` / `MainWindow.load_session`, lines 428-449).

Machine integers are modelled as `Nat` (sizes and offsets are never
negative in the source), wall-clock times as `ℚ` for the speed meter and
as abstract poll ticks (`Nat`) for the pause-poll loop.  Network fetches
are modelled as oracles `ℕ → Option ℕ`: the value is the byte length of
a successful response, `none` is any exception caught by the code.
-/

set_option autoImplicit false

/-- Python `range(start, stop, step)` for a positive step, written with an
explicit fuel argument so that the recursion is structural (`stop`
iterations always suffice once `1 ≤ step`).  This embeds the generator
expression `range(0, total_size, chunk_size)` at line 129 of
`DownloaderWorker.chunked_download`. -/
def pyRangeFuel : ℕ → ℕ → ℕ → ℕ → List ℕ
  | 0, _, _, _ => []
  | fuel + 1, start, stop, step =>
      if start < stop then start :: pyRangeFuel fuel (start + step) stop step else []

def pyRange (start stop step : ℕ) : List ℕ :=
  pyRangeFuel stop start stop step

/-- `chunk_size = 4 * 1024 * 1024` at line 125; the same literal is the
size threshold at line 119 of `DownloaderWorker.download_file`. -/
def chunkSpan : ℕ := 4 * 1024 * 1024

/-- The chunk start offsets submitted at line 129:
`range(0, total_size, chunk_size)`. -/
def chunkStarts (total : ℕ) : List ℕ :=
  pyRange 0 total chunkSpan

/-- The chunk tasks of `DownloaderWorker.chunked_download` (line 129): each
start offset is paired with the exclusive end offset
`min(start + chunk_size, total_size)`. -/
def chunkTasks (total : ℕ) : List (ℕ × ℕ) :=
  (chunkStarts total).map (fun s => (s, min (s + chunkSpan) total))

/-- Number of chunk tasks: the ceiling of `total / chunkSpan`. -/
def numChunks (total : ℕ) : ℕ :=
  (total + chunkSpan - 1) / chunkSpan

lemma chunkSpan_pos : 0 < chunkSpan := by decide

lemma pyRangeFuel_spec :
    ∀ (n fuel start stop : ℕ),
      (stop - start + chunkSpan - 1) / chunkSpan = n → n ≤ fuel →
      pyRangeFuel fuel start stop chunkSpan = List.range' start n chunkSpan := by
  intro n
  induction n with
  | zero =>
    intro fuel start stop hdiv _
    have hstop : ¬ start < stop := by
      simp only [chunkSpan] at hdiv; omega
    cases fuel with
    | zero => simp [pyRangeFuel, List.range']
    | succ f => simp [pyRangeFuel, hstop, List.range']
  | succ n ih =>
    intro fuel start stop hdiv hfuel
    have hlt : start < stop := by
      simp only [chunkSpan] at hdiv ⊢; omega
    obtain ⟨f, rfl⟩ : ∃ f, fuel = f + 1 := ⟨fuel - 1, by omega⟩
    have hdiv' : (stop - (start + chunkSpan) + chunkSpan - 1) / chunkSpan = n := by
      simp only [chunkSpan] at hdiv ⊢; omega
    have := ih f (start + chunkSpan) stop hdiv' (by omega)
    simp [pyRangeFuel, hlt, this, List.range']

lemma numChunks_le_total (total : ℕ) : numChunks total ≤ total := by
  simp only [numChunks, chunkSpan]; omega

lemma chunkStarts_eq (total : ℕ) :
    chunkStarts total = List.range' 0 (numChunks total) chunkSpan := by
  have h : (total - 0 + chunkSpan - 1) / chunkSpan = numChunks total := by
    simp [numChunks]
  exact pyRangeFuel_spec (numChunks total) total 0 total h (numChunks_le_total total)

lemma chunkTasks_eq (total : ℕ) :
    chunkTasks total =
      (List.range' 0 (numChunks total) chunkSpan).map
        (fun s => (s, min (s + chunkSpan) total)) := by
  rw [chunkTasks, chunkStarts_eq]

lemma chunkTasks_length (total : ℕ) :
    (chunkTasks total).length = numChunks total := by
  simp [chunkTasks_eq]

lemma chunkTasks_getElem (total : ℕ) (i : ℕ) (hi : i < (chunkTasks total).length) :
    (chunkTasks total)[i] =
      (chunkSpan * i, min (chunkSpan * i + chunkSpan) total) := by
  simp [chunkTasks_eq, List.getElem_range']

/-- C1: chunk partitioning is exact.  For every `total`, the chunk tasks of
`chunked_download` (span `chunkSpan = 4` MiB, each task carrying the
exclusive end offset `min (start + span) total`) cover `[0, total)` exactly
once — every byte position below `total` lies in exactly one task — the
final task has length `total % span` (or `span` when that remainder is 0),
and `total = 0` produces zero tasks. -/
theorem chunk_partition_exact (total : ℕ) :
    (total = 0 → chunkTasks total = []) ∧
    (∀ t ∈ chunkTasks total, t.2 = min (t.1 + chunkSpan) total) ∧
    (∀ p, p < total → ∃! i : Fin (chunkTasks total).length,
        ((chunkTasks total).get i).1 ≤ p ∧ p < ((chunkTasks total).get i).2) ∧
    (total ≠ 0 → ∃ hne : chunkTasks total ≠ [],
        ((chunkTasks total).getLast hne).2 - ((chunkTasks total).getLast hne).1
          = if total % chunkSpan = 0 then chunkSpan else total % chunkSpan) := by
  refine ⟨?_, ?_, ?_, ?_⟩
  · intro h
    subst h
    decide
  · intro t ht
    simp only [chunkTasks] at ht
    obtain ⟨s, _, rfl⟩ := List.mem_map.mp ht
    rfl
  · intro p hp
    have hlen : (chunkTasks total).length = numChunks total := chunkTasks_length total
    have hidx : p / chunkSpan < (chunkTasks total).length := by
      rw [hlen]
      simp only [numChunks, chunkSpan] at *
      omega
    refine ⟨⟨p / chunkSpan, hidx⟩, ?_, ?_⟩
    · have hg := chunkTasks_getElem total (p / chunkSpan) hidx
      simp only [List.get_eq_getElem, hg]
      simp only [chunkSpan] at *
      omega
    · rintro ⟨j, hj⟩ hmem
      have hg := chunkTasks_getElem total j hj
      simp only [List.get_eq_getElem, hg] at hmem
      apply Fin.ext
      simp only [chunkSpan] at hmem ⊢
      omega
  · intro htot
    have hlen : (chunkTasks total).length = numChunks total := chunkTasks_length total
    have hpos : 0 < numChunks total := by
      simp only [numChunks, chunkSpan]
      omega
    have hne : chunkTasks total ≠ [] := by
      intro h
      rw [h] at hlen
      simp only [List.length_nil] at hlen
      omega
    refine ⟨hne, ?_⟩
    rw [List.getLast_eq_getElem]
    rw [chunkTasks_getElem total ((chunkTasks total).length - 1) (by omega)]
    simp only [hlen, numChunks, chunkSpan] at *
    split <;> omega

theorem chunk_partition_exact_witness :
    (10485760 : ℕ) ≠ 0 ∧
    ∃ hne : chunkTasks 10485760 ≠ [],
      ((chunkTasks 10485760).getLast hne).2 - ((chunkTasks 10485760).getLast hne).1
        = if 10485760 % chunkSpan = 0 then chunkSpan else 10485760 % chunkSpan :=
  ⟨by decide, (chunk_partition_exact 10485760).2.2.2 (by decide)⟩

/-! ## Transfer-strategy choice (`DownloaderWorker.download_file`, lines 118-122) -/

inductive Strategy where
  | chunked
  | singleStream
  deriving DecidableEq

/-- The test `'bytes' in ...headers.get('Accept-Ranges', '')` at line 119;
header values are modelled as character lists, Python `in` on strings is
substring containment. -/
def hasByteRanges (acceptRanges : List Char) : Bool :=
  decide (List.IsInfix ['b', 'y', 't', 'e', 's'] acceptRanges)

/-- `DownloaderWorker.download_file` (lines 118-122): chunked download when
`total_size > 4*1024*1024` and the probed `Accept-Ranges` header contains
`bytes`, otherwise the single-stream download. -/
def download_file_strategy (total : ℕ) (acceptRanges : List Char) : Strategy :=
  if 4 * 1024 * 1024 < total ∧ hasByteRanges acceptRanges = true then Strategy.chunked
  else Strategy.singleStream

/-- `int(head.headers.get('content-length', 0))` at line 82 of
`DownloaderWorker.run`: a missing Content-Length header defaults the total
size to 0. -/
def totalSizeFromHead (contentLength : Option ℕ) : ℕ :=
  contentLength.getD 0

/-- C4: the chunked (range-scheduled) transfer is chosen if and only if the
total size exceeds 4 MiB and the probed Accept-Ranges header advertises
`bytes`; in every other case the single sequential stream transfer is
chosen. -/
theorem transfer_strategy_selection (total : ℕ) (acceptRanges : List Char) :
    (download_file_strategy total acceptRanges = Strategy.chunked ↔
      4 * 1024 * 1024 < total ∧ hasByteRanges acceptRanges = true) ∧
    (download_file_strategy total acceptRanges = Strategy.singleStream ↔
      ¬ (4 * 1024 * 1024 < total ∧ hasByteRanges acceptRanges = true)) := by
  unfold download_file_strategy
  split <;> rename_i h <;> simp [h]

/-! ## Pause polling and per-chunk retry
(`DownloaderWorker._check_pause`, lines 99-103, and
`DownloaderWorker.download_chunk`, lines 136-149.)

The shared control state is modelled by two tick-indexed flag histories
`paused, active : ℕ → Bool`; the poll loop advances one tick per
iteration (one `time.sleep(0.1)` interval). -/

/-- `_check_pause` (lines 99-103): poll the `is_paused` flag until it is
clear, sleeping one tick between polls.  `fuel` bounds how many polls are
modelled; `none` means the worker is still blocked inside the poll loop
after `fuel` polls (the code would keep spinning).  On success it returns
the tick at which the loop exited. -/
def checkPause (paused : ℕ → Bool) : ℕ → ℕ → Option ℕ
  | 0, t => if paused t then none else some t
  | fuel + 1, t => if paused t then checkPause paused fuel (t + 1) else some t

/-- Observable outcome of one `download_chunk` call: the returned value
(`some` byte length, or `none` — the Python `return None` paths), the
ticks at which a ranged GET request was actually issued, and the
`time.sleep(1)` backoffs performed after failed attempts. -/
structure ChunkResult where
  result : Option ℕ
  reqTimes : List ℕ
  sleeps : List ℕ
  deriving DecidableEq

/-- The attempt loop `for attempt in range(3)` of `download_chunk`
(lines 138-148).  Each attempt first runs `_check_pause`, then checks
`self.active` (line 140, returning `None` when cleared), then issues the
ranged request at the current tick: `fetch i = some len` is a successful
response of `len` bytes (written and returned at line 146), `fetch i =
none` is any exception, answered by `time.sleep(1)` (line 148) before the
next attempt.  A request occupies one tick and a backoff one more, so the
next attempt polls at `t + 2`. -/
def chunkLoop (paused active : ℕ → Bool) (fetch : ℕ → Option ℕ) :
    ℕ → ℕ → ℕ → ℕ → ChunkResult
  | 0, _, _, _ => ⟨none, [], []⟩
  | attempts + 1, i, t, fuel =>
    match checkPause paused fuel t with
    | none => ⟨none, [], []⟩
    | some t' =>
      if active t' then
        match fetch i with
        | some len => ⟨some len, [t'], []⟩
        | none =>
          let rest := chunkLoop paused active fetch attempts (i + 1) (t' + 2) fuel
          ⟨rest.result, t' :: rest.reqTimes, 1 :: rest.sleeps⟩
      else ⟨none, [], []⟩

/-- `DownloaderWorker.download_chunk` (lines 136-149): three attempts,
starting at attempt index 0 and tick 0. -/
def download_chunk (paused active : ℕ → Bool) (fetch : ℕ → Option ℕ)
    (fuel : ℕ) : ChunkResult :=
  chunkLoop paused active fetch 3 0 0 fuel

/-! ## Chunk aggregation (`DownloaderWorker.chunked_download`, lines 124-134) -/

/-- The body `if chunk_data_size: downloaded += chunk_data_size` at
line 134: a `None` result — and, by Python truthiness, a zero length —
adds nothing to the running total. -/
def addChunkResult (acc : ℕ) (r : Option ℕ) : ℕ :=
  match r with
  | none => acc
  | some v => if v = 0 then acc else acc + v

/-- The per-chunk results collected by the `as_completed` loop of
`chunked_download` in the run where the session stays active and unpaused:
chunk `i` is the task at index `i` of `chunkTasks total` and is fetched by
the oracle `fetch i` through `download_chunk`.  (The completion order of
`as_completed` is arbitrary; the aggregate below is order-independent, so
task order is used.) -/
def chunkResults (total : ℕ) (fetch : ℕ → ℕ → Option ℕ) (fuel : ℕ) :
    List (Option ℕ) :=
  (List.range (chunkTasks total).length).map
    (fun i => (download_chunk (fun _ => false) (fun _ => true) (fetch i) fuel).result)

/-- The final `downloaded` counter of `chunked_download` (lines 127-134). -/
def chunkedTotal (total : ℕ) (fetch : ℕ → ℕ → Option ℕ) (fuel : ℕ) : ℕ :=
  (chunkResults total fetch fuel).foldl addChunkResult 0

/-! ## The queue loop (`DownloaderWorker.run`, lines 67-97)

Each queue item is summarised by the event that decides its iteration of
the `for idx, link in enumerate(...)` loop.  The stop flag (`self.active`,
cleared asynchronously by `stop()`, line 59-60) is folded into the events:
a `stop…` event says at which observation point of that iteration the
cleared flag was first seen. -/

/-- UI status of a queue item, as painted by the signal handlers of
`MainWindow` (🕒 pending, ➡️ started/active, ✅ completed, ❌ failed). -/
inductive Status where
  | pending
  | active
  | completed
  | failed
  deriving DecidableEq

/-- What happens during one iteration of the `run` loop for its item:
`ok` — the whole try block succeeds with the flag still set (line 86-88);
`resolveFail` — `process_link` or the HEAD probe raises (lines 79-82);
`transferFail` — the transfer raises (e.g. `raise_for_status` in
`single_thread_download`, line 154);
`stopBefore` — the flag is already clear at the loop top (line 73);
`resolveStop` — the flag is first seen clear inside `process_link`
(line 107), which raises `Session stopped`;
`transferStop` — the flag is first seen clear inside the transfer
(line 132 or 158), which returns without raising;
`finishThenStop` — the item finishes normally and the flag clears only
after its iteration. -/
inductive ItemEvent where
  | ok
  | resolveFail
  | transferFail
  | stopBefore
  | resolveStop
  | transferStop
  | finishThenStop
  deriving DecidableEq

/-- Events of an iteration that leaves the stop flag set afterwards. -/
def noStopEvent : ItemEvent → Bool
  | ItemEvent.ok => true
  | ItemEvent.resolveFail => true
  | ItemEvent.transferFail => true
  | _ => false

/-- Final status of the item of one iteration, read off lines 72-94:
an exception emits `link_failed_signal` (line 91); a normal return with
the flag still set emits `link_completed_signal` (line 88); a normal
return with the flag clear emits neither, leaving the started item marked
active; a loop-top break leaves the item untouched (pending). -/
def itemStatusOf : ItemEvent → Status
  | ItemEvent.ok => Status.completed
  | ItemEvent.resolveFail => Status.failed
  | ItemEvent.transferFail => Status.failed
  | ItemEvent.stopBefore => Status.pending
  | ItemEvent.resolveStop => Status.failed
  | ItemEvent.transferStop => Status.active
  | ItemEvent.finishThenStop => Status.completed

/-- Statuses of all queue items after `run` finishes (lines 67-97).  After
a stop event the loop breaks at the next loop top (line 73-75), so every
later item keeps its pending status. -/
def runModel : List ItemEvent → List Status
  | [] => []
  | e :: rest =>
    if noStopEvent e then itemStatusOf e :: runModel rest
    else itemStatusOf e :: rest.map (fun _ => Status.pending)

/-- The `overall_progress_signal.emit(idx + 1, total_links)` events of the
`finally` block (lines 92-94), emitted only while the flag is still set. -/
def runProgressAux (total : ℕ) : List ItemEvent → ℕ → List (ℕ × ℕ)
  | [], _ => []
  | e :: rest, idx =>
    if noStopEvent e then (idx + 1, total) :: runProgressAux total rest (idx + 1)
    else if e = ItemEvent.finishThenStop then [(idx + 1, total)]
    else []

def runProgress (evs : List ItemEvent) : List (ℕ × ℕ) :=
  runProgressAux evs.length evs 0

/-! ## Session persistence
(`MainWindow.save_session`, lines 428-436, and `MainWindow.load_session`,
lines 438-449.)

Queue rows are the displayed strings `"〈status icon〉 〈link〉"`; strings are
modelled as character lists.  `json.dump`/`json.load` of the record list
is assumed to be the identity on records. -/

/-- Python `text.split(" ", 1)` as used at line 432 (`status, link =
text.split(" ", 1)`): split at the first space; `none` models the
`ValueError` raised when the text has no space to split on. -/
def splitFirstSpace : List Char → Option (List Char × List Char)
  | [] => none
  | c :: cs =>
    if c = ' ' then some ([], cs)
    else
      match splitFirstSpace cs with
      | none => none
      | some (a, b) => some (c :: a, b)

/-- `MainWindow.save_session` (lines 428-436): each displayed row is split
into a `{status, link}` record; the record list is what `json.dump`
writes. -/
def save_session : List (List Char) → Option (List (List Char × List Char))
  | [] => some []
  | t :: ts =>
    match splitFirstSpace t, save_session ts with
    | some r, some rs => some (r :: rs)
    | _, _ => none

/-- `MainWindow.load_session` (lines 438-449): each stored record is
rendered back as the row `f"{status} {link}"` (line 445). -/
def load_session (records : List (List Char × List Char)) : List (List Char) :=
  records.map (fun r => r.1 ++ ' ' :: r.2)

/-! ## Speed metering (`DownloaderWorker.update_speed_metrics`, lines 161-167)

Timestamps and byte counts are rationals (the source uses Python floats
from `time.time()`).  The meter state is `none` before the first call
(the `hasattr` test at line 163) and `some (lastUpdateTime,
lastDownloaded)` afterwards. -/

/-- One emitted `speed_signal` value together with the state it was
computed from: emitted at timestamp `t` with cumulative byte count `b`,
from reference point `(lt, ld)` (the `_last_update_time` /
`_last_downloaded` attributes), with value `v`. -/
structure SpeedEmission where
  t : ℚ
  b : ℚ
  lt : ℚ
  ld : ℚ
  v : ℚ
  deriving DecidableEq

/-- One call of `update_speed_metrics(downloaded, current_time)`
(lines 161-167): on the first call the reference attributes are seeded
with the current values (line 163), making `time_diff` zero; afterwards a
speed is emitted exactly when `time_diff > 0.5` (line 165), computed as
`(downloaded - _last_downloaded) / time_diff` (line 166), and the
reference point advances only on emission (line 167). -/
def speedStep (st : Option (ℚ × ℚ)) (b t : ℚ) :
    Option (ℚ × ℚ) × Option SpeedEmission :=
  match st with
  | none => (some (t, b), none)
  | some (lt, ld) =>
    if 1 / 2 < t - lt then (some (t, b), some ⟨t, b, lt, ld, (b - ld) / (t - lt)⟩)
    else (some (lt, ld), none)

/-- The emissions produced by a sequence of `update_speed_metrics` calls,
each update being a `(downloaded, current_time)` pair. -/
def speedRun : Option (ℚ × ℚ) → List (ℚ × ℚ) → List SpeedEmission
  | _, [] => []
  | st, (b, t) :: rest =>
    match speedStep st b t with
    | (st', some e) => e :: speedRun st' rest
    | (st', none) => speedRun st' rest

/-! ## Facts about the pause poll and the retry loop -/

lemma checkPause_unpaused (paused : ℕ → Bool) (fuel t : ℕ) (h : paused t = false) :
    checkPause paused fuel t = some t := by
  cases fuel <;> simp [checkPause, h]

lemma checkPause_spec (paused : ℕ → Bool) :
    ∀ fuel t t', checkPause paused fuel t = some t' →
      paused t' = false ∧ t ≤ t' ∧ ∀ u, t ≤ u → u < t' → paused u = true := by
  intro fuel
  induction fuel with
  | zero =>
    intro t t' h
    simp only [checkPause] at h
    by_cases hp : paused t
    · simp [hp] at h
    · simp [hp] at h
      subst h
      exact ⟨by simpa using hp, Nat.le_refl t, fun u h1 h2 => absurd h1 (by omega)⟩
  | succ f ih =>
    intro t t' h
    simp only [checkPause] at h
    by_cases hp : paused t
    · rw [if_pos hp] at h
      obtain ⟨h1, h2, h3⟩ := ih (t + 1) t' h
      refine ⟨h1, by omega, fun u hu1 hu2 => ?_⟩
      rcases Nat.eq_or_lt_of_le hu1 with rfl | hlt
      · exact hp
      · exact h3 u (by omega) hu2
    · rw [if_neg hp] at h
      obtain rfl := Option.some_injective _ h
      exact ⟨by simpa using hp, Nat.le_refl t, fun u h1 h2 => absurd h1 (by omega)⟩

lemma chunkLoop_allFail (fetch : ℕ → Option ℕ) (h : ∀ i, fetch i = none) :
    ∀ (a i t fuel : ℕ),
      (chunkLoop (fun _ => false) (fun _ => true) fetch a i t fuel).result = none ∧
      (chunkLoop (fun _ => false) (fun _ => true) fetch a i t fuel).reqTimes.length = a ∧
      (chunkLoop (fun _ => false) (fun _ => true) fetch a i t fuel).sleeps
        = List.replicate a 1 := by
  intro a
  induction a with
  | zero => intro i t fuel; exact ⟨rfl, rfl, rfl⟩
  | succ a ih =>
    intro i t fuel
    have hcp := checkPause_unpaused (fun _ => false) fuel t rfl
    obtain ⟨ih1, ih2, ih3⟩ := ih (i + 1) (t + 2) fuel
    simp only [chunkLoop, hcp, h i]
    exact ⟨ih1, by simpa using ih2, by simp [ih3, List.replicate]⟩

lemma chunkLoop_reqTimes_unpaused (paused active : ℕ → Bool) (fetch : ℕ → Option ℕ) :
    ∀ (a i t fuel u : ℕ),
      u ∈ (chunkLoop paused active fetch a i t fuel).reqTimes → paused u = false := by
  intro a
  induction a with
  | zero =>
    intro i t fuel u hu
    simp [chunkLoop] at hu
  | succ a ih =>
    intro i t fuel u hu
    simp only [chunkLoop] at hu
    cases hcp : checkPause paused fuel t with
    | none => rw [hcp] at hu; simp at hu
    | some t' =>
      rw [hcp] at hu
      dsimp only at hu
      have ht' : paused t' = false := (checkPause_spec paused fuel t t' hcp).1
      by_cases ha : active t'
      · rw [if_pos ha] at hu
        cases hf : fetch i with
        | some len =>
          rw [hf] at hu
          simp at hu
          subst hu
          exact ht'
        | none =>
          rw [hf] at hu
          simp only [List.mem_cons] at hu
          rcases hu with rfl | hu
          · exact ht'
          · exact ih (i + 1) (t' + 2) fuel u hu
      · rw [if_neg ha] at hu
        simp at hu

/-- C5: a chunk whose transfer fails on every attempt, with the session
active and unpaused, issues exactly 3 ranged requests — no more, no
fewer — performs a fixed `time.sleep(1)` backoff after each failed
attempt (so each inter-attempt backoff is 1 time unit, with no growth),
and returns no result. -/
theorem chunk_retry_cap (fetch : ℕ → Option ℕ) (fuel : ℕ)
    (hfail : ∀ i, fetch i = none) :
    (download_chunk (fun _ => false) (fun _ => true) fetch fuel).result = none ∧
    (download_chunk (fun _ => false) (fun _ => true) fetch fuel).reqTimes.length = 3 ∧
    (download_chunk (fun _ => false) (fun _ => true) fetch fuel).sleeps = [1, 1, 1] := by
  obtain ⟨h1, h2, h3⟩ := chunkLoop_allFail fetch hfail 3 0 0 fuel
  exact ⟨h1, h2, by rw [download_chunk, h3]; rfl⟩

theorem chunk_retry_cap_witness :
    (download_chunk (fun _ => false) (fun _ => true) (fun _ => none) 0).result = none ∧
    (download_chunk (fun _ => false) (fun _ => true) (fun _ => none) 0).reqTimes.length = 3 ∧
    (download_chunk (fun _ => false) (fun _ => true) (fun _ => none) 0).sleeps = [1, 1, 1] :=
  chunk_retry_cap (fun _ => none) 0 (fun _ => rfl)

/-- C7: a worker issues a ranged request only at ticks where the pause
flag is clear — `_check_pause` blocks it in the poll loop before every
attempt — so during a window in which the pause flag is continuously set,
no ranged request is issued by the retry loop; a request already issued
before the window still runs to completion (the model consumes its oracle
answer unconditionally). -/
theorem pause_blocks_requests (paused active : ℕ → Bool) (fetch : ℕ → Option ℕ)
    (fuel pStart pEnd : ℕ)
    (hwin : ∀ u, pStart ≤ u → u < pEnd → paused u = true) :
    (∀ u ∈ (download_chunk paused active fetch fuel).reqTimes, paused u = false) ∧
    (∀ u ∈ (download_chunk paused active fetch fuel).reqTimes, u < pStart ∨ pEnd ≤ u) := by
  have h1 : ∀ u ∈ (download_chunk paused active fetch fuel).reqTimes, paused u = false :=
    fun u hu => chunkLoop_reqTimes_unpaused paused active fetch 3 0 0 fuel u hu
  refine ⟨h1, fun u hu => ?_⟩
  by_contra hc
  push_neg at hc
  have := hwin u hc.1 hc.2
  rw [h1 u hu] at this
  exact Bool.false_ne_true this

theorem pause_blocks_requests_witness :
    (∀ u ∈ (download_chunk (fun u => decide (1 ≤ u ∧ u < 3)) (fun _ => true)
        (fun _ => some 7) 5).reqTimes,
      (fun u => decide (1 ≤ u ∧ u < 3)) u = false) ∧
    (∀ u ∈ (download_chunk (fun u => decide (1 ≤ u ∧ u < 3)) (fun _ => true)
        (fun _ => some 7) 5).reqTimes, u < 1 ∨ 3 ≤ u) :=
  pause_blocks_requests (fun u => decide (1 ≤ u ∧ u < 3)) (fun _ => true)
    (fun _ => some 7) 5 1 3
    (fun u h1 h2 => by simp only [decide_eq_true_eq]; exact ⟨h1, h2⟩)

/-! ## Facts about chunk aggregation -/

lemma foldl_addChunkResult (l : List (Option ℕ)) :
    ∀ acc, l.foldl addChunkResult acc = acc + (l.map (fun r => r.getD 0)).sum := by
  induction l with
  | nil => simp
  | cons r rest ih =>
    intro acc
    have hstep : addChunkResult acc r = acc + r.getD 0 := by
      cases r with
      | none => simp [addChunkResult]
      | some v => simp only [addChunkResult, Option.getD_some]; split <;> omega
    simp only [List.foldl_cons, List.map_cons, List.sum_cons, hstep, ih]
    omega

/-- C2: a chunk task whose transfer fails on every retry attempt yields no
result (`download_chunk` returns `None` without raising), its bytes are
simply omitted from the running `downloaded` total of `chunked_download`,
and the item is still reported as completed: the iteration carries no
exception, so `run` emits `link_completed_signal`. -/
theorem failed_chunk_omitted_silently (total : ℕ) (fetch : ℕ → ℕ → Option ℕ)
    (fuel j : ℕ) (hfail : ∀ a, fetch j a = none) :
    (download_chunk (fun _ => false) (fun _ => true) (fetch j) fuel).result = none ∧
    chunkedTotal total fetch fuel =
      ((List.range (chunkTasks total).length).map
        (fun i => if i = j then 0
          else (download_chunk (fun _ => false) (fun _ => true)
            (fetch i) fuel).result.getD 0)).sum ∧
    runModel [ItemEvent.ok] = [Status.completed] := by
  have hnone : (download_chunk (fun _ => false) (fun _ => true) (fetch j) fuel).result
      = none := (chunkLoop_allFail (fetch j) hfail 3 0 0 fuel).1
  refine ⟨hnone, ?_, by decide⟩
  rw [chunkedTotal, foldl_addChunkResult, Nat.zero_add, chunkResults, List.map_map]
  refine congrArg List.sum ?_
  apply List.map_congr_left
  intro i _
  by_cases hij : i = j
  · subst hij
    simp [Function.comp, hnone]
  · simp [Function.comp, hij]

theorem failed_chunk_omitted_silently_witness :
    chunkedTotal 5 (fun i _ => if i = 0 then none else some 3) 0 =
      ((List.range (chunkTasks 5).length).map
        (fun i => if i = 0 then 0
          else (download_chunk (fun _ => false) (fun _ => true)
            ((fun i _ => if i = 0 then none else some 3) i) 0).result.getD 0)).sum :=
  (failed_chunk_omitted_silently 5 (fun i _ => if i = 0 then none else some 3) 0 0
    (fun _ => rfl)).2.1

/-! ## Facts about the queue loop -/

lemma runModel_noStop (evs : List ItemEvent) (h : ∀ e ∈ evs, noStopEvent e = true) :
    runModel evs = evs.map itemStatusOf := by
  induction evs with
  | nil => rfl
  | cons e rest ih =>
    have he := h e (List.mem_cons_self e rest)
    simp [runModel, he, ih (fun x hx => h x (List.mem_cons_of_mem e hx))]

lemma noStop_status_terminal (e : ItemEvent) (h : noStopEvent e = true) :
    itemStatusOf e = Status.completed ∨ itemStatusOf e = Status.failed := by
  cases e <;> simp_all [noStopEvent, itemStatusOf]

lemma runProgressAux_noStop (n : ℕ) (evs : List ItemEvent)
    (h : ∀ e ∈ evs, noStopEvent e = true) :
    ∀ idx, runProgressAux n evs idx
      = (List.range evs.length).map (fun i => (idx + i + 1, n)) := by
  induction evs with
  | nil => intro idx; rfl
  | cons e rest ih =>
    intro idx
    have he := h e (List.mem_cons_self e rest)
    rw [List.length_cons, List.range_succ_eq_map, List.map_cons, List.map_map]
    simp only [runProgressAux, he, if_pos]
    rw [ih (fun x hx => h x (List.mem_cons_of_mem e hx)) (idx + 1)]
    refine congrArg₂ List.cons (by simp) ?_
    apply List.map_congr_left
    intro a _
    simp only [Function.comp]
    refine Prod.ext ?_ rfl
    omega

/-- C3: in a run with no stop request, each item's terminal status is
decided by its own event alone — a failing item is recorded Failed and
every other item is still processed normally — every status is terminal,
and the emitted overall-progress tuples are `(1, n) … (n, n)`, so
progress reaches `(n, n)`. -/
theorem item_failure_isolated (evs : List ItemEvent)
    (h : ∀ e ∈ evs, noStopEvent e = true) :
    runModel evs = evs.map itemStatusOf ∧
    (∀ e ∈ evs, itemStatusOf e = Status.completed ∨ itemStatusOf e = Status.failed) ∧
    runProgress evs = (List.range evs.length).map (fun i => (i + 1, evs.length)) ∧
    (evs ≠ [] → (evs.length, evs.length) ∈ runProgress evs) := by
  have hprog : runProgress evs
      = (List.range evs.length).map (fun i => (i + 1, evs.length)) := by
    rw [runProgress, runProgressAux_noStop evs.length evs h 0]
    apply List.map_congr_left
    intro a _
    simp
  refine ⟨runModel_noStop evs h, fun e he => noStop_status_terminal e (h e he), hprog, ?_⟩
  intro hne
  have hlen : 0 < evs.length := List.length_pos.mpr hne
  rw [hprog]
  refine List.mem_map.mpr ⟨evs.length - 1, List.mem_range.mpr (by omega), ?_⟩
  refine Prod.ext ?_ rfl
  simp
  omega

theorem item_failure_isolated_witness :
    runModel [ItemEvent.ok, ItemEvent.resolveFail, ItemEvent.ok]
      = [Status.completed, Status.failed, Status.completed] ∧
    (3, 3) ∈ runProgress [ItemEvent.ok, ItemEvent.resolveFail, ItemEvent.ok] := by
  have h := item_failure_isolated [ItemEvent.ok, ItemEvent.resolveFail, ItemEvent.ok]
    (by decide)
  exact ⟨by rw [h.1]; rfl, h.2.2.2 (by decide)⟩

lemma runModel_append_noStop (pre : List ItemEvent)
    (h : ∀ e ∈ pre, noStopEvent e = true) (suf : List ItemEvent) :
    runModel (pre ++ suf) = pre.map itemStatusOf ++ runModel suf := by
  induction pre with
  | nil => rfl
  | cons e rest ih =>
    have he := h e (List.mem_cons_self e rest)
    simp [runModel, he, ih (fun x hx => h x (List.mem_cons_of_mem e hx))]

/-- C6 counterexample: a stop request first observed inside the transfer
(`transferStop`) leaves the in-flight item marked active — `run` skips
both `link_completed_signal` (line 86 guard) and `link_failed_signal` (no
exception was raised) — so the item does not end in a terminal state at
all, contradicting the claim that it ends Failed or Completed. -/
theorem stop_mid_transfer_leaves_item_active :
    runModel [ItemEvent.transferStop] = [Status.active] ∧
    Status.active ≠ Status.completed ∧
    Status.active ≠ Status.failed ∧
    Status.active ≠ Status.pending := by decide

/-- C6 amended: once a stop request is observed, no subsequent queue item
is started (all later items keep their pending status), already-terminal
items keep their statuses, the item that was active ends Failed when the
stop was observed at the resolve step, Completed when it finished in the
same instant, but remains marked Active (started, non-terminal) when the
stop arrived mid-transfer — it is never reverted to Pending once
started — and a chunk worker that sees the cleared flag issues no further
ranged request. -/
theorem stop_request_behaviour (pre rest : List ItemEvent) (e : ItemEvent)
    (hpre : ∀ x ∈ pre, noStopEvent x = true) (he : noStopEvent e = false) :
    runModel (pre ++ e :: rest)
      = pre.map itemStatusOf
        ++ itemStatusOf e :: rest.map (fun _ => Status.pending) ∧
    (∀ x ∈ pre, itemStatusOf x = Status.completed ∨ itemStatusOf x = Status.failed) ∧
    (e ≠ ItemEvent.stopBefore → itemStatusOf e ≠ Status.pending) ∧
    (itemStatusOf e = Status.failed ∨ itemStatusOf e = Status.active ∨
      itemStatusOf e = Status.completed ∨ e = ItemEvent.stopBefore) ∧
    (∀ fetch fuel,
      (download_chunk (fun _ => false) (fun _ => false) fetch fuel).reqTimes = [] ∧
      (download_chunk (fun _ => false) (fun _ => false) fetch fuel).result = none) := by
  refine ⟨?_, fun x hx => noStop_status_terminal x (hpre x hx), ?_, ?_, ?_⟩
  · rw [runModel_append_noStop pre hpre]
    simp [runModel, he]
  · intro hne
    cases e <;> simp_all [noStopEvent, itemStatusOf]
  · cases e <;> simp_all [noStopEvent, itemStatusOf]
  · intro fetch fuel
    have hcp := checkPause_unpaused (fun _ => false) fuel 0 rfl
    constructor <;> simp [download_chunk, chunkLoop, hcp]

theorem stop_request_behaviour_witness :
    runModel [ItemEvent.ok, ItemEvent.transferStop, ItemEvent.resolveFail]
      = [Status.completed, Status.active, Status.pending] := by
  have h := stop_request_behaviour [ItemEvent.ok] [ItemEvent.resolveFail]
    ItemEvent.transferStop (by decide) (by decide)
  rw [show [ItemEvent.ok, ItemEvent.transferStop, ItemEvent.resolveFail]
      = [ItemEvent.ok] ++ ItemEvent.transferStop :: [ItemEvent.resolveFail] from rfl,
    h.1]
  rfl

/-- C10: a HEAD response with no Content-Length header defaults the total
size to 0 instead of raising, hence the strategy decision always takes
the single-stream branch for that item (the chunked path is unreachable),
and an item whose processing completes without an exception is still
reported Completed. -/
theorem missing_content_length_defaults (acceptRanges : List Char) :
    totalSizeFromHead none = 0 ∧
    download_file_strategy (totalSizeFromHead none) acceptRanges
      = Strategy.singleStream ∧
    runModel [ItemEvent.ok] = [Status.completed] := by
  refine ⟨rfl, ?_, by decide⟩
  simp [download_file_strategy, totalSizeFromHead]

/-! ## Facts about session persistence -/

lemma splitFirstSpace_append (a b : List Char) (h : ' ' ∉ a) :
    splitFirstSpace (a ++ ' ' :: b) = some (a, b) := by
  induction a with
  | nil => simp [splitFirstSpace]
  | cons c cs ih =>
    have hc : ¬ c = ' ' := fun hcc => h (hcc ▸ List.mem_cons_self c cs)
    rw [List.cons_append]
    simp only [splitFirstSpace, if_neg hc]
    rw [ih (fun hm => h (List.mem_cons_of_mem c hm))]

lemma splitFirstSpace_of_mem (t : List Char) (h : ' ' ∈ t) :
    ∃ a b, splitFirstSpace t = some (a, b) ∧ t = a ++ ' ' :: b ∧ ' ' ∉ a := by
  induction t with
  | nil => cases h
  | cons c cs ih =>
    by_cases hc : c = ' '
    · subst hc
      exact ⟨[], cs, by simp [splitFirstSpace], rfl, by simp⟩
    · have hcs : ' ' ∈ cs := by
        rcases List.mem_cons.mp h with hh | hh
        · exact absurd hh.symm hc
        · exact hh
      obtain ⟨a, b, h1, h2, h3⟩ := ih hcs
      refine ⟨c :: a, b, ?_, by simp [h2], ?_⟩
      · simp only [splitFirstSpace, if_neg hc, h1]
      · intro hm
        rcases List.mem_cons.mp hm with hh | hh
        · exact hc hh.symm
        · exact h3 hh

/-- C8: the session record list round-trips.  Loading a list of
`{status, link}` records paints the rows `"status link"`, and saving
splits each row back at its first space, recovering exactly the same
record list, provided each status icon contains no space; symmetrically,
any row list in which every row contains a space survives a save followed
by a load unchanged. -/
theorem session_roundtrip :
    (∀ records : List (List Char × List Char),
      (∀ r ∈ records, ' ' ∉ r.1) →
      save_session (load_session records) = some records) ∧
    (∀ rows : List (List Char),
      (∀ t ∈ rows, ' ' ∈ t) →
      (save_session rows).map load_session = some rows) := by
  constructor
  · intro records h
    induction records with
    | nil => rfl
    | cons r rs ih =>
      have hr := h r (List.mem_cons_self r rs)
      have hsplit := splitFirstSpace_append r.1 r.2 hr
      simp only [load_session, List.map_cons] at *
      simp only [save_session, hsplit, ih (fun x hx => h x (List.mem_cons_of_mem r hx))]
  · intro rows h
    induction rows with
    | nil => rfl
    | cons t ts ih =>
      obtain ⟨a, b, h1, h2, h3⟩ :=
        splitFirstSpace_of_mem t (h t (List.mem_cons_self t ts))
      have hts := ih (fun x hx => h x (List.mem_cons_of_mem t hx))
      obtain ⟨rs, hrs, hload⟩ := Option.map_eq_some'.mp hts
      simp only [save_session, h1, hrs]
      simp only [Option.map_some', load_session, List.map_cons]
      rw [← load_session, hload, ← h2]

theorem session_roundtrip_witness :
    save_session (load_session [( [ 'A' ], [ 'x', 'y' ] )])
      = some [( [ 'A' ], [ 'x', 'y' ] )] :=
  session_roundtrip.1 [( [ 'A' ], [ 'x', 'y' ] )] (by decide)

/-! ## Facts about the speed meter -/

lemma speedRun_emission_spec :
    ∀ (updates : List (ℚ × ℚ)) (st : Option (ℚ × ℚ)) (e : SpeedEmission),
      e ∈ speedRun st updates →
      e.v = (e.b - e.ld) / (e.t - e.lt) ∧ 1 / 2 < e.t - e.lt := by
  intro updates
  induction updates with
  | nil =>
    intro st e he
    simp [speedRun] at he
  | cons u rest ih =>
    intro st e he
    obtain ⟨b, t⟩ := u
    cases st with
    | none =>
      simp only [speedRun, speedStep] at he
      exact ih (some (t, b)) e he
    | some p =>
      obtain ⟨lt, ld⟩ := p
      by_cases hlt : 1 / 2 < t - lt
      · simp only [speedRun, speedStep, if_pos hlt, List.mem_cons] at he
        rcases he with rfl | he
        · exact ⟨rfl, hlt⟩
        · exact ih (some (t, b)) e he
      · simp only [speedRun, speedStep, if_neg hlt] at he
        exact ih (some (lt, ld)) e he

lemma speedRun_some_head :
    ∀ (updates : List (ℚ × ℚ)) (t0 b0 : ℚ) (e : SpeedEmission)
      (rest : List SpeedEmission),
      speedRun (some (t0, b0)) updates = e :: rest → e.lt = t0 ∧ e.ld = b0 := by
  intro updates
  induction updates with
  | nil =>
    intro t0 b0 e rest h
    simp [speedRun] at h
  | cons u us ih =>
    intro t0 b0 e rest h
    obtain ⟨b, t⟩ := u
    by_cases hlt : 1 / 2 < t - t0
    · simp only [speedRun, speedStep, if_pos hlt, List.cons.injEq] at h
      rw [← h.1]
      exact ⟨rfl, rfl⟩
    · simp only [speedRun, speedStep, if_neg hlt] at h
      exact ih t0 b0 e rest h

lemma speedRun_chain :
    ∀ (updates : List (ℚ × ℚ)) (st : Option (ℚ × ℚ)),
      List.Chain' (fun e1 e2 => e2.lt = e1.t ∧ e2.ld = e1.b) (speedRun st updates) := by
  intro updates
  induction updates with
  | nil =>
    intro st
    simp [speedRun]
  | cons u us ih =>
    intro st
    obtain ⟨b, t⟩ := u
    cases st with
    | none =>
      simp only [speedRun, speedStep]
      exact ih (some (t, b))
    | some p =>
      obtain ⟨lt, ld⟩ := p
      by_cases hlt : 1 / 2 < t - lt
      · simp only [speedRun, speedStep, if_pos hlt]
        cases hrest : speedRun (some (t, b)) us with
        | nil => simp
        | cons e2 es =>
          have hh := speedRun_some_head us t b e2 es hrest
          have hch := ih (some (t, b))
          rw [hrest] at hch
          exact List.Chain'.cons ⟨hh.1, hh.2⟩ hch
      · simp only [speedRun, speedStep, if_neg hlt]
        exact ih (some (lt, ld))

lemma chain_emission_gap (l : List SpeedEmission)
    (hspec : ∀ e ∈ l, 1 / 2 < e.t - e.lt)
    (hch : List.Chain' (fun e1 e2 => e2.lt = e1.t ∧ e2.ld = e1.b) l) :
    List.Chain' (fun e1 e2 => 1 / 2 ≤ e2.t - e1.t) l := by
  induction l with
  | nil => simp
  | cons a l2 ih =>
    cases l2 with
    | nil => simp
    | cons b l3 =>
      rw [List.chain'_cons] at hch ⊢
      refine ⟨?_, ih (fun e he => hspec e (List.mem_cons_of_mem a he)) hch.2⟩
      have hb := hspec b (List.mem_cons_of_mem a (List.mem_cons_self b l3))
      rw [hch.1.1] at hb
      exact le_of_lt hb

/-- C9: for every sequence of `(downloaded, time)` progress updates, each
emitted rate equals `(bytesNow - bytesAtLastEmission) / (timeNow -
timeAtLastEmission)` relative to the recorded reference point, an
emission happens only when at least 0.5 time units have elapsed since
that reference point, each emission's reference point is exactly the
previous emission, and consecutive emissions are at least 0.5 time units
apart — so at most one rate emission occurs per 0.5 time units. -/
theorem speed_emission_throttling (updates : List (ℚ × ℚ)) :
    (∀ e ∈ speedRun none updates,
        e.v = (e.b - e.ld) / (e.t - e.lt) ∧ 1 / 2 ≤ e.t - e.lt) ∧
    List.Chain' (fun e1 e2 => e2.lt = e1.t ∧ e2.ld = e1.b) (speedRun none updates) ∧
    List.Chain' (fun e1 e2 => 1 / 2 ≤ e2.t - e1.t) (speedRun none updates) := by
  refine ⟨fun e he => ?_, speedRun_chain updates none, ?_⟩
  · obtain ⟨h1, h2⟩ := speedRun_emission_spec updates none e he
    exact ⟨h1, le_of_lt h2⟩
  · exact chain_emission_gap (speedRun none updates)
      (fun e he => (speedRun_emission_spec updates none e he).2)
      (speedRun_chain updates none)

theorem speed_emission_throttling_witness :
    ∀ e ∈ speedRun none [((0 : ℚ), (0 : ℚ)), (100, 1)],
      e.v = (e.b - e.ld) / (e.t - e.lt) ∧ 1 / 2 ≤ e.t - e.lt :=
  (speed_emission_throttling [((0 : ℚ), (0 : ℚ)), (100, 1)]).1
